import Mathlib

/-!
Verification development for the MediaGrid chunked-upload subsystem.

Client side (`src/Client/src/App.jsx`): `uploadFile` routes files above a
50 MiB threshold to `uploadFileChunked`, which slices the file into 10 MiB
chunks, resumes from a localStorage ledger, reconciles with the server's
`/api/check-chunks` endpoint, sends chunks with a bounded retry/backoff
policy and persists progress.

Server side (`src/unnamed/part_004`, and the older variant
`src/Server/index.js`): `/api/upload-chunk` validates query parameters,
writes one slot file per chunk index, and when the number of distinct slot
files for a name equals the declared total it concatenates the slots in
index order into the final file, deleting each slot after consuming it.

Bytes are modelled as `Nat`, files as `List Nat`, the per-filename slot
store as a function `Nat → Option (List Nat)`, and the client ledger's
completed-chunk map as a `Finset Nat` of indices.
-/

set_option maxRecDepth 8000

namespace MediaGrid

/-- `CHUNK_SIZE = 10 * 1024 * 1024` (App.jsx line 178). -/
def CHUNK_SIZE : Nat := 10 * 1024 * 1024

/-- `MAX_RETRIES = 5` (App.jsx line 185). -/
def MAX_RETRIES : Nat := 5

/-- `BASE_RETRY_DELAY = 1000` ms (App.jsx line 186). -/
def BASE_RETRY_DELAY : Nat := 1000

/-- `MAX_RETRY_DELAY = 30000` ms (App.jsx line 187). -/
def MAX_RETRY_DELAY : Nat := 30000

/-- `LARGE_FILE_THRESHOLD = 50 * 1024 * 1024` (App.jsx lines 96 and 409). -/
def LARGE_FILE_THRESHOLD : Nat := 50 * 1024 * 1024

/-- `totalChunks = Math.ceil(file.size / CHUNK_SIZE)` (App.jsx line 180).
For the sizes accepted by the server (≤ 5 GiB < 2^53) the floating-point
ceiling equals the exact natural-number ceiling `(size + C - 1) / C`. -/
def totalChunksOf (size C : Nat) : Nat := (size + C - 1) / C

/-- The byte range `[i*C, min((i+1)*C, size))` sliced for chunk `i`
(App.jsx lines 249-251: `start = chunkIndex * CHUNK_SIZE`,
`end = Math.min(start + CHUNK_SIZE, file.size)`, `file.slice(start, end)`). -/
def chunkOf (file : List Nat) (C i : Nat) : List Nat :=
  (file.drop (i * C)).take (min (i * C + C) file.length - i * C)

/-- Server reassembly loop (part_004 lines 128-133): for `i` in
`0..totalChunks-1` read slot `i`, append its bytes to the output stream and
delete the slot (`fs.unlink`) immediately after consuming it. -/
def combineLoop : List Nat → (Nat → Option (List Nat)) → List Nat × (Nat → Option (List Nat))
  | [], st => ([], st)
  | i :: rest, st =>
    let bytes := (st i).getD []
    let st1 : Nat → Option (List Nat) := fun k => if k = i then none else st k
    let r := combineLoop rest st1
    (bytes ++ r.1, r.2)

/-- Server reassembly of `total` slots in index order (part_004 lines 122-135). -/
def reassemble (total : Nat) (st : Nat → Option (List Nat)) :
    List Nat × (Nat → Option (List Nat)) :=
  combineLoop (List.range total) st

lemma chunkOf_eq_take (file : List Nat) (C i : Nat) :
    chunkOf file C i = (file.drop (i * C)).take C := by
  unfold chunkOf
  rw [List.take_eq_take]
  simp only [List.length_drop]
  omega

lemma flatten_chunks (C : Nat) (_hC : 0 < C) :
    ∀ (n : Nat) (l : List Nat), l.length ≤ n * C →
      ((List.range n).map (fun i => (l.drop (i * C)).take C)).flatten = l := by
  intro n
  induction n with
  | zero =>
    intro l hl
    simp only [Nat.zero_mul, Nat.le_zero] at hl
    have hnil : l = [] := List.eq_nil_of_length_eq_zero hl
    simp [hnil]
  | succ n ih =>
    intro l hl
    rw [List.range_succ_eq_map, List.map_cons, List.map_map, List.flatten_cons]
    have hmap : ∀ i ∈ List.range n,
        ((fun i => (l.drop (i * C)).take C) ∘ Nat.succ) i =
          ((l.drop C).drop (i * C)).take C := by
      intro i _
      simp only [Function.comp_apply]
      rw [List.drop_drop]
      congr 2
      rw [Nat.succ_mul]
      omega
    rw [List.map_congr_left hmap]
    have hlen : (l.drop C).length ≤ n * C := by
      simp only [List.length_drop]
      have hl' : l.length ≤ n * C + C := by
        have : (n + 1) * C = n * C + C := by ring
        omega
      omega
    rw [ih (l.drop C) hlen]
    simp

lemma length_le_totalChunks_mul (L C : Nat) (hC : 0 < C) :
    L ≤ totalChunksOf L C * C := by
  unfold totalChunksOf
  rw [Nat.mul_comm]
  have h1 := Nat.div_add_mod (L + C - 1) C
  have h2 : (L + C - 1) % C < C := Nat.mod_lt _ hC
  generalize hr : (L + C - 1) % C = r at h1 h2
  generalize ht : C * ((L + C - 1) / C) = t at h1 ⊢
  omega

lemma combineLoop_snd (idxs : List Nat) (st : Nat → Option (List Nat)) (k : Nat) :
    (combineLoop idxs st).2 k = if k ∈ idxs then none else st k := by
  induction idxs generalizing st with
  | nil => simp [combineLoop]
  | cons i rest ih =>
    simp only [combineLoop]
    rw [ih]
    by_cases h1 : k ∈ rest
    · simp [h1]
    · by_cases h2 : k = i <;> simp [h1, h2]

lemma combineLoop_fst (idxs : List Nat) (st : Nat → Option (List Nat))
    (hnd : idxs.Nodup) :
    (combineLoop idxs st).1 = (idxs.map (fun i => (st i).getD [])).flatten := by
  induction idxs generalizing st with
  | nil => simp [combineLoop]
  | cons i rest ih =>
    have hnd' := List.nodup_cons.mp hnd
    simp only [combineLoop, List.map_cons, List.flatten_cons]
    rw [ih _ hnd'.2]
    congr 1
    apply congrArg
    apply List.map_congr_left
    intro j hj
    have hji : ¬(j = i) := fun e => hnd'.1 (e ▸ hj)
    simp [hji]

/-- Claim C1: for a source file of size `S` uploaded with chunk size
`C = 10 * 2^20`, the orchestrator produces `totalChunks = ⌈S/C⌉` chunks,
chunk `i` being the byte range `[i*C, min((i+1)*C, S))`; when all slots are
present reassembly appends them in index order, deleting each slot after
consuming it, and the final file is byte-for-byte the original. -/
theorem chunk_roundtrip (file : List Nat) (st : Nat → Option (List Nat))
    (h : ∀ i, i < totalChunksOf file.length CHUNK_SIZE →
      st i = some (chunkOf file CHUNK_SIZE i)) :
    (reassemble (totalChunksOf file.length CHUNK_SIZE) st).1 = file ∧
    (∀ i, i < totalChunksOf file.length CHUNK_SIZE →
      (reassemble (totalChunksOf file.length CHUNK_SIZE) st).2 i = none) := by
  have hC : 0 < CHUNK_SIZE := by norm_num [CHUNK_SIZE]
  constructor
  · rw [reassemble, combineLoop_fst _ _ (List.nodup_range _)]
    have hmap : ∀ i ∈ List.range (totalChunksOf file.length CHUNK_SIZE),
        (fun i => (st i).getD []) i = (file.drop (i * CHUNK_SIZE)).take CHUNK_SIZE := by
      intro i hi
      show (st i).getD [] = (file.drop (i * CHUNK_SIZE)).take CHUNK_SIZE
      rw [h i (List.mem_range.mp hi)]
      rw [Option.getD_some, chunkOf_eq_take]
    rw [List.map_congr_left hmap]
    exact flatten_chunks CHUNK_SIZE hC _ file
      (length_le_totalChunks_mul file.length CHUNK_SIZE hC)
  · intro i hi
    rw [reassemble, combineLoop_snd]
    simp [List.mem_range.mpr hi]

/-- Witness for C1 at the concrete three-byte file `[1, 2, 3]` (one chunk). -/
theorem chunk_roundtrip_witness :
    (reassemble (totalChunksOf ([1, 2, 3] : List Nat).length CHUNK_SIZE)
      (fun i => if i = 0 then some (chunkOf [1, 2, 3] CHUNK_SIZE 0) else none)).1
        = [1, 2, 3] ∧
    (reassemble (totalChunksOf ([1, 2, 3] : List Nat).length CHUNK_SIZE)
      (fun i => if i = 0 then some (chunkOf [1, 2, 3] CHUNK_SIZE 0) else none)).2 0
        = none := by
  have htot : totalChunksOf ([1, 2, 3] : List Nat).length CHUNK_SIZE = 1 := by
    norm_num [totalChunksOf, CHUNK_SIZE]
  have h : ∀ i, i < totalChunksOf ([1, 2, 3] : List Nat).length CHUNK_SIZE →
      (fun i => if i = 0 then some (chunkOf [1, 2, 3] CHUNK_SIZE 0) else none) i
        = some (chunkOf [1, 2, 3] CHUNK_SIZE i) := by
    intro i hi
    rw [htot] at hi
    have hz : i = 0 := by omega
    simp [hz]
  exact ⟨(chunk_roundtrip [1, 2, 3] _ h).1,
    (chunk_roundtrip [1, 2, 3] _ h).2 0 (by rw [htot]; norm_num)⟩

/-! Client resume logic (App.jsx lines 189-241).  The ledger's
`completedChunks` object is modelled by the `Finset Nat` of its keys.
The code sorts the keys ascending and takes `last + 1` as the resume
start, i.e. one past the maximum completed index (0 for an empty map). -/

/-- `startChunkIndex` (App.jsx lines 192-199): the sorted completed keys'
last element plus one, or 0 when the map is empty.  The sorted list's last
element is the maximum, computed here as a fold. -/
def startChunkIndex (completed : Finset Nat) : Nat :=
  completed.fold max 0 (fun i => i + 1)

/-- App.jsx line 213: the `/api/check-chunks` resume query is issued only
when `startChunkIndex > 0`. -/
def callsResumeQuery (completed : Finset Nat) : Bool :=
  decide (0 < startChunkIndex completed)

/-- App.jsx lines 213-233: when the resume query runs, every
server-reported index is unioned into the local completed set; otherwise
the local set is used as-is. -/
def reconcile (completed serverChunks : Finset Nat) : Finset Nat :=
  if callsResumeQuery completed then completed ∪ serverChunks else completed

/-- App.jsx lines 236-241: the remaining indices are collected by a loop
`for (chunkIndex = startChunkIndex; chunkIndex < totalChunks; chunkIndex++)`
keeping the indices not marked completed. -/
def remainingChunks (completed : Finset Nat) (total : Nat) : List Nat :=
  (List.range' (startChunkIndex completed) (total - startChunkIndex completed)).filter
    (fun i => decide (i ∉ completed))

lemma startChunkIndex_pos_of_mem (completed : Finset Nat) (j : Nat)
    (hj : j ∈ completed) : j < startChunkIndex completed := by
  have : j + 1 ≤ startChunkIndex completed :=
    (Finset.le_fold_max (j + 1)).mpr (Or.inr ⟨j, hj, le_refl _⟩)
  omega

/-- Counterexample to claim C2: with completed set `{0, 2}` out of 5
chunks, index 1 is missing from the completed set yet is not in the list
of chunks the orchestrator sends — the resume loop starts at
`max(completed) + 1 = 3` and never revisits the gap at 1. -/
theorem resume_gap_counterexample :
    1 < 5 ∧ 1 ∉ ({0, 2} : Finset Nat) ∧
      1 ∉ remainingChunks ({0, 2} : Finset Nat) 5 := by
  refine ⟨by norm_num, by decide, ?_⟩
  decide

/-- Claim C2 amended: the set of chunk indices sent is
`[startChunkIndex, totalChunks)` minus the completed set, where
`startChunkIndex` is one past the largest completed index (a watermark) —
not `[0, totalChunks)` minus the completed set; indices below the
watermark that are absent from the completed set are never sent. -/
theorem remainingChunks_spec (completed : Finset Nat) (total i : Nat) :
    i ∈ remainingChunks completed total ↔
      startChunkIndex completed ≤ i ∧ i < total ∧ i ∉ completed := by
  unfold remainingChunks
  rw [List.mem_filter, List.mem_range'_1]
  simp only [decide_eq_true_eq]
  constructor
  · rintro ⟨⟨h1, h2⟩, h3⟩
    exact ⟨h1, by omega, h3⟩
  · rintro ⟨h1, h2, h3⟩
    exact ⟨⟨h1, by omega⟩, h3⟩

/-- Counterexample to claim C3: with a fresh (empty) local ledger the
orchestrator never issues the resume query — the `/api/check-chunks` call
is guarded by `startChunkIndex > 0` (App.jsx line 213). -/
theorem fresh_ledger_no_resume_query :
    callsResumeQuery (∅ : Finset Nat) = false := by
  decide

/-- Claim C3 amended: the orchestrator calls the resume query exactly when
the local ledger's completed set is nonempty; in that case the
server-reported indices are unioned into the local completed set before the
remaining set is computed. -/
theorem resume_reconcile (completed server : Finset Nat)
    (h : completed.Nonempty) :
    callsResumeQuery completed = true ∧
      reconcile completed server = completed ∪ server := by
  obtain ⟨j, hj⟩ := h
  have hpos : 0 < startChunkIndex completed := by
    have := startChunkIndex_pos_of_mem completed j hj
    omega
  have hc : callsResumeQuery completed = true := by
    simp [callsResumeQuery, hpos]
  exact ⟨hc, by simp [reconcile, hc]⟩

/-- Witness for C3's amended claim at `completed = {0}`, `server = {2}`. -/
theorem resume_reconcile_witness :
    callsResumeQuery ({0} : Finset Nat) = true ∧
      reconcile ({0} : Finset Nat) ({2} : Finset Nat) =
        ({0} : Finset Nat) ∪ ({2} : Finset Nat) :=
  resume_reconcile {0} {2} ⟨0, by decide⟩

/-! Per-chunk retry loop (App.jsx lines 253-330).  `retryAttempt` starts at
0 and the loop body runs while `retryAttempt <= MAX_RETRIES`, so a chunk is
tried at most `MAX_RETRIES + 1 = 6` times; the `outcome` oracle reports
whether the attempt numbered `a` (0-based) succeeds.  The loop is modelled
by structural recursion on the number of retries still allowed
(`remaining = MAX_RETRIES - retryAttempt`). -/

/-- One chunk's send loop.  `sendLoop outcome remaining` runs the attempt
numbered `MAX_RETRIES - remaining`; on failure it retries while retries
remain, and after the sixth failure it throws (App.jsx line 327), reported
here as `Except.error` carrying the number of failed attempts. -/
def sendLoop (outcome : Nat → Bool) : Nat → Except Nat Nat
  | 0 =>
    if outcome MAX_RETRIES then Except.ok MAX_RETRIES
    else Except.error (MAX_RETRIES + 1)
  | r + 1 =>
    if outcome (MAX_RETRIES - (r + 1)) then Except.ok (MAX_RETRIES - (r + 1))
    else sendLoop outcome r

/-- A chunk send starting at `retryAttempt = 0` (App.jsx lines 253-256). -/
def sendChunk (outcome : Nat → Bool) : Except Nat Nat :=
  sendLoop outcome MAX_RETRIES

/-- Backoff base delay before the retry numbered `retryAttempt ≥ 1`
(App.jsx line 320): `min(BASE_RETRY_DELAY * 2^(retryAttempt-1), MAX_RETRY_DELAY)`. -/
def backoffBase (retryAttempt : Nat) : Nat :=
  min (BASE_RETRY_DELAY * 2 ^ (retryAttempt - 1)) MAX_RETRY_DELAY

/-- Total retry delay with jitter (App.jsx lines 320-322):
`jitter = Math.random() * 0.3 * baseDelay`, `delay = baseDelay + jitter`,
with `Math.random()` modelled by a rational `r ∈ [0, 1)`. -/
def delayWithJitter (retryAttempt : Nat) (r : ℚ) : ℚ :=
  (backoffBase retryAttempt : ℚ) + r * (3 / 10) * (backoffBase retryAttempt : ℚ)

/-- The client ledger record for one logical upload
(`upload_progress_<uploadId>` in localStorage): completed chunk indices and
the last error message, modelled by the failing chunk's index. -/
structure LedgerRecord where
  completed : Finset Nat
  lastError : Option Nat
deriving DecidableEq

/-- The chunk-upload loop of `uploadFileChunked` (App.jsx lines 244-341),
serialised: each remaining index is sent with `sendChunk`; a success marks
the index completed in the ledger and appends it to the list of indices
sent; a chunk that exhausts its retries fails the whole file at that index. -/
def uploadLoop (outcomes : Nat → Nat → Bool) :
    List Nat → Finset Nat → List Nat → Except Nat (List Nat) × Finset Nat
  | [], comp, sent => (Except.ok sent, comp)
  | i :: rest, comp, sent =>
    match sendChunk (outcomes i) with
    | Except.ok _ => uploadLoop outcomes rest (insert i comp) (sent ++ [i])
    | Except.error _ => (Except.error i, comp)

/-- One run of `uploadFileChunked` (App.jsx lines 177-403): resume from the
ledger, reconcile with the server-reported chunks, send the remaining
indices, and on success (local completed count reaches `totalChunks`,
lines 344-347 and 375-377) clear the ledger record; on failure persist the
last error and the completed set (lines 379-402) and propagate the error. -/
def runChunkedUpload (total : Nat) (ledger server : Finset Nat)
    (outcomes : Nat → Nat → Bool) : Except Nat (List Nat) × Option LedgerRecord :=
  match uploadLoop outcomes
      (remainingChunks (reconcile ledger server) total)
      (reconcile ledger server) [] with
  | (Except.ok sent, _) => (Except.ok sent, none)
  | (Except.error i, comp) => (Except.error i, some ⟨comp, some i⟩)

lemma sendLoop_ok (outcome : Nat → Bool) (k : Nat)
    (hs : outcome k = true) (hf : ∀ a, a < k → outcome a = false) :
    ∀ r, r ≤ MAX_RETRIES → MAX_RETRIES - r ≤ k → k ≤ MAX_RETRIES →
      sendLoop outcome r = Except.ok k := by
  intro r
  induction r with
  | zero =>
    intro _ hlo hhi
    have hk : k = MAX_RETRIES := by omega
    subst hk
    simp [sendLoop, hs]
  | succ r ih =>
    intro hr hlo hhi
    by_cases hk : MAX_RETRIES - (r + 1) = k
    · simp [sendLoop, hk, hs]
    · have hfail : outcome (MAX_RETRIES - (r + 1)) = false := by
        apply hf
        omega
      rw [sendLoop, hfail]
      simp only [Bool.false_eq_true, if_false]
      exact ih (by omega) (by omega) hhi

lemma sendChunk_ok (outcome : Nat → Bool) (k : Nat) (hk : k ≤ MAX_RETRIES)
    (hs : outcome k = true) (hf : ∀ a, a < k → outcome a = false) :
    sendChunk outcome = Except.ok k :=
  sendLoop_ok outcome k hs hf MAX_RETRIES (le_refl _) (by omega) hk

lemma sendLoop_err (outcome : Nat → Bool)
    (hb : ∀ a, a ≤ MAX_RETRIES → outcome a = false) :
    ∀ r, sendLoop outcome r = Except.error (MAX_RETRIES + 1) := by
  intro r
  induction r with
  | zero => simp [sendLoop, hb MAX_RETRIES (le_refl _)]
  | succ r ih =>
    rw [sendLoop, hb (MAX_RETRIES - (r + 1)) (by omega)]
    simpa using ih

lemma sendChunk_err (outcome : Nat → Bool)
    (hb : ∀ a, a ≤ MAX_RETRIES → outcome a = false) :
    sendChunk outcome = Except.error (MAX_RETRIES + 1) :=
  sendLoop_err outcome hb MAX_RETRIES

lemma uploadLoop_ok (outcomes : Nat → Nat → Bool) (idxs : List Nat) :
    ∀ (comp : Finset Nat) (sent : List Nat),
      (∀ j ∈ idxs, ∃ a, sendChunk (outcomes j) = Except.ok a) →
      (uploadLoop outcomes idxs comp sent).1 = Except.ok (sent ++ idxs) := by
  induction idxs with
  | nil => intro comp sent _; simp [uploadLoop]
  | cons i rest ih =>
    intro comp sent h
    obtain ⟨a, ha⟩ := h i (List.mem_cons_self i rest)
    rw [uploadLoop, ha]
    rw [ih (insert i comp) (sent ++ [i])
      (fun j hj => h j (List.mem_cons_of_mem i hj))]
    simp

lemma uploadLoop_comp_mono (outcomes : Nat → Nat → Bool) (idxs : List Nat) :
    ∀ (comp : Finset Nat) (sent : List Nat),
      comp ⊆ (uploadLoop outcomes idxs comp sent).2 := by
  induction idxs with
  | nil => intro comp sent; simp [uploadLoop]
  | cons i rest ih =>
    intro comp sent
    rw [uploadLoop]
    cases sendChunk (outcomes i) with
    | ok a =>
      simp only
      exact (Finset.subset_insert i comp).trans (ih (insert i comp) (sent ++ [i]))
    | error e => simp

/-- Counterexample to claim C5: with a ledger already containing all three
chunk indices of a 3-chunk upload, the orchestrator reports success and
clears the ledger without sending a single chunk (the list of sent indices
is empty) — no server response is ever seen, even though every send would
have failed.  The completion decision is made from the local
completed-chunk count (App.jsx lines 344-347, 375-377). -/
theorem local_completion_counterexample :
    (runChunkedUpload 3 ({0, 1, 2} : Finset Nat) ∅ (fun _ _ => false)).1 =
        Except.ok [] ∧
    (runChunkedUpload 3 ({0, 1, 2} : Finset Nat) ∅ (fun _ _ => false)).2 =
        none := by
  exact ⟨rfl, rfl⟩

/-- Claim C5 amended: the orchestrator declares completion, clears its
ledger record and reports success exactly when its own local
completed-chunk count reaches `totalChunks` — i.e. when every index in its
remaining list is sent successfully (or none remained); it does not
consult the server's authoritative complete signal. -/
theorem completion_is_local (total : Nat) (ledger server : Finset Nat)
    (outcomes : Nat → Nat → Bool)
    (h : ∀ j ∈ remainingChunks (reconcile ledger server) total,
      ∃ a, sendChunk (outcomes j) = Except.ok a) :
    (runChunkedUpload total ledger server outcomes).1 =
        Except.ok (remainingChunks (reconcile ledger server) total) ∧
    (runChunkedUpload total ledger server outcomes).2 = none := by
  have hu := uploadLoop_ok outcomes
    (remainingChunks (reconcile ledger server) total)
    (reconcile ledger server) [] h
  rcases hres : uploadLoop outcomes
      (remainingChunks (reconcile ledger server) total)
      (reconcile ledger server) [] with ⟨res, comp⟩
  rw [hres] at hu
  simp only [List.nil_append] at hu
  cases res with
  | ok sent =>
    have hsent : sent = remainingChunks (reconcile ledger server) total := by
      simpa using hu
    subst hsent
    constructor <;> simp only [runChunkedUpload] <;> rw [hres]
  | error i => simp at hu

/-- Witness for C5's amended claim: one chunk, empty ledger, every send
succeeds on its first attempt. -/
theorem completion_is_local_witness :
    (runChunkedUpload 1 ∅ ∅ (fun _ _ => true)).1 =
        Except.ok (remainingChunks (reconcile ∅ ∅) 1) ∧
    (runChunkedUpload 1 ∅ ∅ (fun _ _ => true)).2 = none :=
  completion_is_local 1 ∅ ∅ (fun _ _ => true) (fun _ _ => ⟨0, rfl⟩)

/-- Claim C6: a failed chunk send is retried up to `MAX_RETRIES = 5` times
with backoff delay `min(1000 * 2^(attempt-1), 30000)` milliseconds plus
random jitter of up to 30% of that value; a chunk that fails at most 5
times and then succeeds does not fail the file, while a chunk whose six
attempts all fail makes the whole file upload error out rather than being
silently skipped. -/
theorem retry_policy (outcome bad : Nat → Bool) (k : Nat)
    (hk : k ≤ MAX_RETRIES)
    (hf : ∀ a, a < k → outcome a = false) (hs : outcome k = true)
    (hb : ∀ a, a ≤ MAX_RETRIES → bad a = false)
    (r : ℚ) (hr0 : 0 ≤ r) (hr1 : r < 1) (attempt : Nat)
    (total : Nat) (htotal : 0 < total) :
    sendChunk outcome = Except.ok k ∧
    sendChunk bad = Except.error (MAX_RETRIES + 1) ∧
    (backoffBase attempt : ℚ) ≤ delayWithJitter attempt r ∧
    delayWithJitter attempt r < 13 / 10 * (backoffBase attempt : ℚ) ∧
    (runChunkedUpload total ∅ ∅ (fun _ => bad)).1 = Except.error 0 := by
  have hBnat : 0 < backoffBase attempt := by
    have h2 : 0 < 1000 * 2 ^ (attempt - 1) := by positivity
    unfold backoffBase BASE_RETRY_DELAY MAX_RETRY_DELAY
    exact lt_min h2 (by norm_num)
  have hB : (0 : ℚ) < (backoffBase attempt : ℚ) := by exact_mod_cast hBnat
  refine ⟨sendChunk_ok outcome k hk hs hf, sendChunk_err bad hb, ?_, ?_, ?_⟩
  · unfold delayWithJitter
    nlinarith [mul_nonneg (mul_nonneg hr0 (by norm_num : (0:ℚ) ≤ 3 / 10)) hB.le]
  · unfold delayWithJitter
    nlinarith [mul_pos hB (show (0:ℚ) < 1 - r by linarith)]
  · obtain ⟨t, rfl⟩ : ∃ t, total = t + 1 := ⟨total - 1, by omega⟩
    have hrec : reconcile ∅ ∅ = (∅ : Finset Nat) := rfl
    have hrem : remainingChunks (reconcile ∅ ∅) (t + 1) =
        0 :: (List.range' 1 t).filter (fun i => decide (i ∉ (∅ : Finset Nat))) := by
      rw [hrec]
      unfold remainingChunks
      have hstart : startChunkIndex (∅ : Finset Nat) = 0 := rfl
      rw [hstart]
      simp only [Nat.sub_zero, List.range'_succ, List.filter_cons]
      norm_num
    have hsend : sendChunk bad = Except.error (MAX_RETRIES + 1) :=
      sendChunk_err bad hb
    have hloop : uploadLoop (fun _ => bad)
        (remainingChunks (reconcile ∅ ∅) (t + 1)) (reconcile ∅ ∅) [] =
        (Except.error 0, reconcile ∅ ∅) := by
      rw [hrem, uploadLoop]
      rw [show sendChunk ((fun _ => bad) 0) = Except.error (MAX_RETRIES + 1) from hsend]
    simp only [runChunkedUpload]
    rw [hloop]

/-- Witness for C6: a chunk failing exactly 3 times then succeeding, a
chunk failing all 6 attempts, jitter fraction 1/2 at retry 2, and a
one-chunk file whose only chunk exhausts its retries. -/
theorem retry_policy_witness :
    sendChunk (fun a => decide (a = 3)) = Except.ok 3 ∧
    sendChunk (fun _ => false) = Except.error (MAX_RETRIES + 1) ∧
    (backoffBase 2 : ℚ) ≤ delayWithJitter 2 (1 / 2) ∧
    delayWithJitter 2 (1 / 2) < 13 / 10 * (backoffBase 2 : ℚ) ∧
    (runChunkedUpload 1 ∅ ∅ (fun _ _ => false)).1 = Except.error 0 :=
  retry_policy (fun a => decide (a = 3)) (fun _ => false) 3
    (by norm_num [MAX_RETRIES])
    (by intro a ha; simp only [decide_eq_false_iff_not]; omega)
    (by simp)
    (fun _ _ => rfl)
    (1 / 2) (by norm_num) (by norm_num) 2 1 (by norm_num)

/-- Claim C8: when a chunked upload fails unrecoverably, the last error is
persisted into the ledger record, the completed-chunk set is kept (the
record is not deleted on failure), and the error is propagated. -/
theorem failure_keeps_ledger (total : Nat) (ledger server : Finset Nat)
    (outcomes : Nat → Nat → Bool) (e : Nat)
    (h : (runChunkedUpload total ledger server outcomes).1 = Except.error e) :
    ∃ comp : Finset Nat,
      (runChunkedUpload total ledger server outcomes).2 =
          some ⟨comp, some e⟩ ∧
      reconcile ledger server ⊆ comp := by
  have hmono := uploadLoop_comp_mono outcomes
    (remainingChunks (reconcile ledger server) total)
    (reconcile ledger server) []
  rcases hres : uploadLoop outcomes
      (remainingChunks (reconcile ledger server) total)
      (reconcile ledger server) [] with ⟨res, comp⟩
  rw [hres] at hmono
  cases res with
  | ok sent =>
    exfalso
    simp only [runChunkedUpload] at h
    rw [hres] at h
    simp at h
  | error i =>
    simp only [runChunkedUpload] at h ⊢
    rw [hres] at h ⊢
    simp only [Except.error.injEq] at h
    subst h
    exact ⟨comp, rfl, hmono⟩

/-- Witness for C8: a two-chunk upload whose first chunk exhausts its
retries; the ledger record survives with the error recorded. -/
theorem failure_keeps_ledger_witness :
    ∃ comp : Finset Nat,
      (runChunkedUpload 2 ∅ ∅ (fun _ _ => false)).2 = some ⟨comp, some 0⟩ ∧
      reconcile ∅ ∅ ⊆ comp :=
  failure_keeps_ledger 2 ∅ ∅ (fun _ _ => false) 0 rfl

/-! Server chunk endpoint state (part_004 lines 96-174).  For one
(sanitized filename, target directory) key the `.chunks` directory is
modelled by the `Finset Nat` of slot indices present, plus a flag
recording whether the final file has been written. -/

/-- Server-side state for one filename's chunk slots. -/
structure ChunkState where
  received : Finset Nat
  finalWritten : Bool
deriving DecidableEq

/-- One `/api/upload-chunk` request for index `i` (part_004 lines 113-169):
write the slot (`fs.writeFile` overwrites, so the slot set gains `i`),
count the distinct slot files, and if the count equals the declared total,
concatenate slots `0..total-1` deleting each, write the final file and
answer `complete`; otherwise answer with the current count. -/
def uploadChunkReq (total : Nat) (st : ChunkState) (i : Nat) :
    ChunkState × Bool :=
  let r := insert i st.received
  if r.card = total then
    (⟨r \ Finset.range total, true⟩, true)
  else
    (⟨r, st.finalWritten⟩, false)

/-- A sequence of chunk arrivals processed by the endpoint, returning the
final state and the per-request complete/incomplete responses. -/
def runChunkReqs (total : Nat) : List Nat → ChunkState → ChunkState × List Bool
  | [], st => (st, [])
  | i :: rest, st =>
    let p := uploadChunkReq total st i
    let q := runChunkReqs total rest p.1
    (q.1, p.2 :: q.2)

lemma runChunkReqs_aux (total : Nat) (arrivals : List Nat) :
    ∀ (rcv : Finset Nat) (f : Bool),
      (∀ i ∈ arrivals, i < total) → rcv ⊆ Finset.range total →
      arrivals.Nodup → (∀ i ∈ arrivals, i ∉ rcv) →
      (runChunkReqs total arrivals ⟨rcv, f⟩).2 =
        (List.range arrivals.length).map
          (fun k => decide (rcv.card + (k + 1) = total)) ∧
      (runChunkReqs total arrivals ⟨rcv, f⟩).1.finalWritten =
        (f || decide (arrivals ≠ [] ∧ rcv.card + arrivals.length = total)) := by
  induction arrivals with
  | nil =>
    intro rcv f _ _ _ _
    simp [runChunkReqs]
  | cons i rest ih =>
    intro rcv f hlt hsub hnd hdisj
    have hi : i ∉ rcv := hdisj i (List.mem_cons_self i rest)
    have hcardins : (insert i rcv).card = rcv.card + 1 :=
      Finset.card_insert_of_not_mem hi
    have hnd' := List.nodup_cons.mp hnd
    have hbound : rcv.card + (rest.length + 1) ≤ total := by
      have hdisj2 : Disjoint rcv (i :: rest).toFinset := by
        rw [Finset.disjoint_right]
        intro a ha
        exact fun hmem => hdisj a (List.mem_toFinset.mp ha) hmem
      have hsub2 : rcv ∪ (i :: rest).toFinset ⊆ Finset.range total := by
        apply Finset.union_subset hsub
        intro a ha
        exact Finset.mem_range.mpr (hlt a (List.mem_toFinset.mp ha))
      have hcardu := Finset.card_union_of_disjoint hdisj2
      have hle := Finset.card_le_card hsub2
      rw [Finset.card_range] at hle
      rw [hcardu, List.toFinset_card_of_nodup hnd] at hle
      simpa using hle
    by_cases htrig : rcv.card + 1 = total
    · have hrestnil : rest = [] := by
        have := hbound
        have hlen : rest.length = 0 := by omega
        exact List.eq_nil_of_length_eq_zero hlen
      subst hrestnil
      have hstep : uploadChunkReq total ⟨rcv, f⟩ i =
          (⟨insert i rcv \ Finset.range total, true⟩, true) := by
        unfold uploadChunkReq
        simp [hcardins, htrig]
      simp only [runChunkReqs, hstep]
      have htot : total = rcv.card + 1 := htrig.symm
      subst htot
      refine ⟨?_, ?_⟩
      · simp
        decide
      · simp
    · have hstep : uploadChunkReq total ⟨rcv, f⟩ i =
          (⟨insert i rcv, f⟩, false) := by
        unfold uploadChunkReq
        simp only [hcardins]
        rw [if_neg htrig]
      have hsub' : insert i rcv ⊆ Finset.range total := by
        apply Finset.insert_subset
        · exact Finset.mem_range.mpr (hlt i (List.mem_cons_self i rest))
        · exact hsub
      have hdisj' : ∀ j ∈ rest, j ∉ insert i rcv := by
        intro j hj
        rw [Finset.mem_insert]
        rintro (rfl | hmem)
        · exact hnd'.1 hj
        · exact hdisj j (List.mem_cons_of_mem i hj) hmem
      have hih := ih (insert i rcv) f
        (fun j hj => hlt j (List.mem_cons_of_mem i hj)) hsub' hnd'.2 hdisj'
      simp only [runChunkReqs, hstep]
      constructor
      · rw [List.length_cons, List.range_succ_eq_map, List.map_cons, List.map_map]
        congr 1
        · simp [htrig]
        · rw [hih.1]
          apply List.map_congr_left
          intro k _
          simp only [Function.comp_apply]
          apply decide_eq_decide.mpr
          rw [hcardins]
          omega
      · rw [hih.2, hcardins]
        by_cases hrest : rest = []
        · subst hrest
          simp [htrig]
        · have h1 : (rest ≠ [] ∧ rcv.card + 1 + rest.length = total) ↔
              ((i :: rest) ≠ [] ∧ rcv.card + (i :: rest).length = total) := by
            simp only [List.length_cons]
            constructor
            · rintro ⟨_, h⟩
              exact ⟨List.cons_ne_nil i rest, by omega⟩
            · rintro ⟨_, h⟩
              exact ⟨hrest, by omega⟩
          rw [decide_eq_decide.mpr h1]

/-- Claim C4: for every arrival sequence at the chunk upload endpoint (all
indices in range, no duplicates, positive declared total), the response to
the k-th request reports completion exactly when the number of distinct
received slots — the size of the set of indices seen so far — equals the
declared total; reassembly (the final file write) happens exactly when the
distinct count reaches the total, independent of arrival order, and before
that every response is the incomplete one with no final file. -/
theorem completion_trigger (total : Nat) (arrivals : List Nat)
    (htotal : 0 < total)
    (hlt : ∀ i ∈ arrivals, i < total) (hnd : arrivals.Nodup) :
    (runChunkReqs total arrivals ⟨∅, false⟩).2 =
      (List.range arrivals.length).map
        (fun k => decide ((arrivals.take (k + 1)).toFinset.card = total)) ∧
    ((runChunkReqs total arrivals ⟨∅, false⟩).1.finalWritten = true ↔
      arrivals.toFinset.card = total) := by
  have haux := runChunkReqs_aux total arrivals ∅ false hlt
    (Finset.empty_subset _) hnd (by simp)
  constructor
  · rw [haux.1]
    apply List.map_congr_left
    intro k hk
    have hk' : k < arrivals.length := List.mem_range.mp hk
    apply decide_eq_decide.mpr
    have htake : (arrivals.take (k + 1)).toFinset.card = k + 1 := by
      rw [List.toFinset_card_of_nodup (hnd.sublist (List.take_sublist _ _))]
      rw [List.length_take]
      omega
    rw [htake]
    simp only [Finset.card_empty]
    omega
  · rw [haux.2]
    have hlen : arrivals.toFinset.card = arrivals.length :=
      List.toFinset_card_of_nodup hnd
    rw [hlen]
    simp only [Finset.card_empty, Bool.false_or, decide_eq_true_eq, Nat.zero_add]
    constructor
    · rintro ⟨_, h⟩
      omega
    · intro h
      have : arrivals ≠ [] := by
        intro hnil
        subst hnil
        simp at h
        omega
      exact ⟨this, by omega⟩

/-- Witness for C4 at the spec's out-of-order example: arrivals
`[4, 2, 0, 3, 1]` with `total = 5` — only the fifth response reports
completion and the final file is written. -/
theorem completion_trigger_witness :
    (runChunkReqs 5 [4, 2, 0, 3, 1] ⟨∅, false⟩).2 =
      (List.range ([4, 2, 0, 3, 1] : List Nat).length).map
        (fun k => decide ((([4, 2, 0, 3, 1] : List Nat).take (k + 1)).toFinset.card = 5)) ∧
    ((runChunkReqs 5 [4, 2, 0, 3, 1] ⟨∅, false⟩).1.finalWritten = true ↔
      ([4, 2, 0, 3, 1] : List Nat).toFinset.card = 5) :=
  completion_trigger 5 [4, 2, 0, 3, 1] (by norm_num)
    (by decide) (by decide)

/-! `/api/upload-chunk` request validation (part_004 lines 98-101, and the
identical check in src/Server/index.js lines 44-48):
`if (!filename || chunkIndex === undefined || !totalChunks)` return a 400
`Missing required parameters` response.  `!filename` is true when the
query parameter is absent or the empty string; `chunkIndex === undefined`
only when absent; `!totalChunks` when absent or empty (its numeric value
is parsed afterwards with `parseInt`).  `targetPath` is never validated:
line 107 defaults it with `targetPath || '/'`. -/

/-- The four scalar query parameters of the chunk upload endpoint; `none`
models an absent parameter. -/
structure ChunkRequest where
  filename : Option String
  chunkIndex : Option Nat
  totalChunks : Option Nat
  targetPath : Option String

/-- The endpoint's possible responses: 400 invalid request, incomplete
(`{chunked:false, uploaded:n}`-style) or complete (`{chunked:true}`). -/
inductive ChunkResp
  | invalid
  | progress (uploaded total : Nat)
  | completed
deriving DecidableEq

/-- The chunk upload endpoint (part_004 lines 96-174) acting on the slot
state for the addressed file: validate the three checked parameters, then
write the slot and check completion via `uploadChunkReq`. -/
def handleUploadChunk (req : ChunkRequest) (st : ChunkState) :
    ChunkResp × ChunkState :=
  if req.filename.getD "" = "" ∨ req.chunkIndex = none ∨ req.totalChunks = none then
    (ChunkResp.invalid, st)
  else
    let i := req.chunkIndex.getD 0
    let total := req.totalChunks.getD 0
    let p := uploadChunkReq total st i
    (if p.2 then ChunkResp.completed else ChunkResp.progress p.1.received.card total,
      p.1)

/-- Counterexample to claim C7: a request with the target directory
parameter missing (but the other three present) is not rejected — the
endpoint defaults the directory to `'/'`, processes the chunk, and the
side effect happens (the slot for index 0 is written). -/
theorem missing_target_not_rejected :
    (handleUploadChunk ⟨some "a.mp4", some 0, some 2, none⟩ ⟨∅, false⟩).1 =
        ChunkResp.progress 1 2 ∧
    (handleUploadChunk ⟨some "a.mp4", some 0, some 2, none⟩ ⟨∅, false⟩).2.received =
        ({0} : Finset Nat) := by
  exact ⟨rfl, rfl⟩

/-- Claim C7 amended: only three of the four scalar parameters are
validated — if the file name is missing (or empty), or the chunk index or
total chunk count is missing, the endpoint returns the invalid-request
error and performs no side effect; a missing target directory is not an
error (it defaults to the root directory and the request proceeds). -/
theorem invalid_request_no_side_effect (req : ChunkRequest) (st : ChunkState)
    (h : req.filename.getD "" = "" ∨ req.chunkIndex = none ∨
      req.totalChunks = none) :
    handleUploadChunk req st = (ChunkResp.invalid, st) := by
  unfold handleUploadChunk
  rw [if_pos h]

/-- Witness for C7's amended claim: a request missing the filename is
rejected and the state is untouched. -/
theorem invalid_request_no_side_effect_witness :
    handleUploadChunk ⟨none, some 0, some 2, some "/"⟩ ⟨∅, false⟩ =
        (ChunkResp.invalid, ⟨∅, false⟩) :=
  invalid_request_no_side_effect ⟨none, some 0, some 2, some "/"⟩ ⟨∅, false⟩
    (Or.inl rfl)

/-! Size classification (claim C10).  `uploadFile` (App.jsx lines 94-99)
takes the chunked path only when `file.size > LARGE_FILE_THRESHOLD`;
`uploadMultipleFiles` (App.jsx lines 409-422) puts a file in the small
group only when `file.size < LARGE_FILE_THRESHOLD`, otherwise in the
large group. -/

/-- `uploadFile`'s routing test: chunked iff strictly above the threshold. -/
def routesChunked (size : Nat) : Bool := decide (LARGE_FILE_THRESHOLD < size)

/-- `uploadMultipleFiles`'s partition test: small iff strictly below the
threshold. -/
def classifiesSmall (size : Nat) : Bool := decide (size < LARGE_FILE_THRESHOLD)

/-- Claim C10: a file of exactly 50 MiB (52428800 bytes) is classified
inconsistently: the batch partition does not treat it as small (so it is
queued as large), yet `uploadFile` does not route it to the chunked path;
every other size is classified consistently. -/
theorem threshold_boundary :
    (classifiesSmall (50 * 1024 * 1024) = false ∧
      routesChunked (50 * 1024 * 1024) = false) ∧
    ∀ s : Nat, s ≠ 50 * 1024 * 1024 →
      (classifiesSmall s = false ↔ routesChunked s = true) := by
  constructor
  · exact ⟨by decide, by decide⟩
  · intro s hs
    simp only [classifiesSmall, routesChunked, LARGE_FILE_THRESHOLD,
      decide_eq_false_iff_not, decide_eq_true_eq, Nat.not_lt]
    omega

/-- Witness for C10's quantified part at size 0. -/
theorem threshold_boundary_witness :
    (0 : Nat) ≠ 50 * 1024 * 1024 ∧
      (classifiesSmall 0 = false ↔ routesChunked 0 = true) :=
  ⟨by norm_num, threshold_boundary.2 0 (by norm_num)⟩

/-! `sanitizeFilename` (part_004 lines 313-320) applies four regex
replacements in order: whitespace runs (pattern `\s+`) become one hyphen;
characters outside the class `[\w\-_.]` are stripped; hyphen runs of two
or more (pattern `--+`) become one hyphen; leading and trailing hyphen
runs (pattern `^-+` and `-+$`) are removed.  Modelled on `List Char`. -/

/-- JavaScript's `\s` class (ECMAScript WhiteSpace and LineTerminator):
tab, LF, VT, FF, CR, space, NBSP, Ogham space mark, U+2000-U+200A, LS, PS,
NNBSP, MMSP, ideographic space and BOM, by code point. -/
def isJsWhitespace (c : Char) : Bool :=
  decide (c.toNat = 9) || decide (c.toNat = 10) || decide (c.toNat = 11) ||
  decide (c.toNat = 12) || decide (c.toNat = 13) || decide (c.toNat = 32) ||
  decide (c.toNat = 160) || decide (c.toNat = 5760) ||
  decide (8192 ≤ c.toNat ∧ c.toNat ≤ 8202) ||
  decide (c.toNat = 8232) || decide (c.toNat = 8233) ||
  decide (c.toNat = 8239) || decide (c.toNat = 8287) ||
  decide (c.toNat = 12288) || decide (c.toNat = 65279)

/-- JavaScript's `\w` class: ASCII letters, digits and underscore. -/
def isWordChar (c : Char) : Bool :=
  decide (65 ≤ c.toNat ∧ c.toNat ≤ 90) ||
  decide (97 ≤ c.toNat ∧ c.toNat ≤ 122) ||
  decide (48 ≤ c.toNat ∧ c.toNat ≤ 57) || decide (c.toNat = 95)

/-- A hyphen character. -/
def isHyphen (c : Char) : Bool := decide (c = '-')

/-- The class kept by `replace(/[^\w\-_.]/g, '')`: `\w`, hyphen and dot
(the pattern `[A-Za-z0-9._-]` of the spec). -/
def keepChar (c : Char) : Bool := isWordChar c || isHyphen c || decide (c = '.')

/-- `replace(/\s+/g, '-')`: each maximal whitespace run becomes a single
hyphen.  The flag records whether the previous character was whitespace. -/
def collapseWs : Bool → List Char → List Char
  | _, [] => []
  | prevWs, c :: rest =>
    if isJsWhitespace c then
      (if prevWs then [] else ['-']) ++ collapseWs true rest
    else c :: collapseWs false rest

/-- The third pass (pattern `--+`, replacement `-`): runs of two or more
hyphens become a single hyphen.  Collapsing every hyphen run to one hyphen
is the same function, since runs of length one are unchanged by the regex. -/
def collapseHyphens : Bool → List Char → List Char
  | _, [] => []
  | prevH, c :: rest =>
    if isHyphen c then
      (if prevH then [] else ['-']) ++ collapseHyphens true rest
    else c :: collapseHyphens false rest

/-- The `-+$` half of `replace(/^-+|-+$/g, '')`: strip the maximal
trailing hyphen run. -/
def rstripHyphens : List Char → List Char
  | [] => []
  | c :: rest =>
    match rstripHyphens rest with
    | [] => if isHyphen c then [] else [c]
    | r => c :: r

/-- `sanitizeFilename` (part_004 lines 313-320): the four regex passes in
order; the `^-+` half of the last pass is `dropWhile`. -/
def sanitizeFilename (s : List Char) : List Char :=
  rstripHyphens
    ((collapseHyphens false ((collapseWs false s).filter keepChar)).dropWhile isHyphen)

/-- No two adjacent hyphens anywhere in the list. -/
def noDoubleHyphen : List Char → Bool
  | [] => true
  | [_] => true
  | a :: b :: rest => (!(isHyphen a && isHyphen b)) && noDoubleHyphen (b :: rest)

/-- Whether the list starts with a hyphen. -/
def headHyphen : List Char → Bool
  | [] => false
  | c :: _ => isHyphen c

lemma keep_not_ws (c : Char) (h : keepChar c = true) : isJsWhitespace c = false := by
  have hn : 45 ≤ c.toNat ∧ c.toNat ≤ 122 := by
    unfold keepChar isWordChar isHyphen at h
    simp only [Bool.or_eq_true, decide_eq_true_eq] at h
    rcases h with ((((h | h) | h) | h) | h) | h
    · omega
    · omega
    · omega
    · omega
    · subst h
      decide
    · subst h
      decide
  rw [← Bool.not_eq_true]
  unfold isJsWhitespace
  simp only [Bool.or_eq_true, decide_eq_true_eq]
  intro hw
  rcases hw with (((((((((((((h | h) | h) | h) | h) | h) | h) | h) | h) | h) | h) | h) | h) | h) | h <;> omega

lemma noDD_tail (a : Char) (l : List Char)
    (h : noDoubleHyphen (a :: l) = true) : noDoubleHyphen l = true := by
  cases l with
  | nil => rfl
  | cons b rest =>
    unfold noDoubleHyphen at h
    exact (Bool.and_eq_true_iff.mp h).2

lemma mem_collapseHyphens_keep (l : List Char)
    (h : ∀ c ∈ l, keepChar c = true) :
    ∀ b, ∀ c ∈ collapseHyphens b l, keepChar c = true := by
  induction l with
  | nil => intro b c hc; simp [collapseHyphens] at hc
  | cons a rest ih =>
    intro b c hc
    have hrest : ∀ c ∈ rest, keepChar c = true :=
      fun d hd => h d (List.mem_cons_of_mem a hd)
    by_cases ha : isHyphen a = true
    · rw [collapseHyphens, if_pos ha] at hc
      rcases List.mem_append.mp hc with hc1 | hc2
      · cases b with
        | true => simp at hc1
        | false =>
          have hc3 : c = '-' := by simpa using hc1
          subst hc3
          decide
      · exact ih hrest true c hc2
    · rw [collapseHyphens, if_neg ha] at hc
      rcases List.mem_cons.mp hc with hc1 | hc2
      · subst hc1
        exact h c (List.mem_cons_self c rest)
      · exact ih hrest false c hc2

lemma mem_rstrip (l : List Char) : ∀ c ∈ rstripHyphens l, c ∈ l := by
  induction l with
  | nil => intro c hc; simp [rstripHyphens] at hc
  | cons a rest ih =>
    intro c hc
    cases hr : rstripHyphens rest with
    | nil =>
      rw [rstripHyphens, hr] at hc
      by_cases ha : isHyphen a = true
      · rw [if_pos ha] at hc
        simp at hc
      · rw [if_neg ha] at hc
        simp only [List.mem_singleton] at hc
        subst hc
        exact List.mem_cons_self c rest
    | cons d t =>
      rw [rstripHyphens, hr] at hc
      rcases List.mem_cons.mp hc with hc1 | hc2
      · subst hc1
        exact List.mem_cons_self c rest
      · exact List.mem_cons_of_mem a (ih c (hr ▸ hc2))

lemma sanitize_keep (s : List Char) :
    ∀ c ∈ sanitizeFilename s, keepChar c = true := by
  intro c hc
  unfold sanitizeFilename at hc
  have hc1 := mem_rstrip _ c hc
  have hc2 := (List.dropWhile_sublist isHyphen).subset hc1
  exact mem_collapseHyphens_keep _
    (fun d hd => (List.mem_filter.mp hd).2) false c hc2

lemma collapseWs_id (l : List Char)
    (h : ∀ c ∈ l, isJsWhitespace c = false) : collapseWs false l = l := by
  induction l with
  | nil => rfl
  | cons a rest ih =>
    rw [collapseWs, h a (List.mem_cons_self a rest)]
    simp only [Bool.false_eq_true, if_false]
    rw [ih (fun d hd => h d (List.mem_cons_of_mem a hd))]

lemma collapseHyphens_head (l : List Char) :
    headHyphen (collapseHyphens true l) = false := by
  induction l with
  | nil => rfl
  | cons a rest ih =>
    by_cases ha : isHyphen a = true
    · rw [collapseHyphens, if_pos ha]
      simpa using ih
    · rw [collapseHyphens, if_neg ha]
      simpa [headHyphen] using ha

lemma collapseHyphens_noDD (l : List Char) :
    ∀ b, noDoubleHyphen (collapseHyphens b l) = true := by
  induction l with
  | nil => intro b; rfl
  | cons a rest ih =>
    intro b
    by_cases ha : isHyphen a = true
    · cases b with
      | true =>
        rw [collapseHyphens, if_pos ha]
        simpa using ih true
      | false =>
        rw [collapseHyphens, if_pos ha]
        rw [if_neg Bool.false_ne_true, List.singleton_append]
        cases hrec : collapseHyphens true rest with
        | nil => rfl
        | cons d t =>
          have hd : isHyphen d = false := by
            have := collapseHyphens_head rest
            rw [hrec] at this
            simpa [headHyphen] using this
          unfold noDoubleHyphen
          rw [hd]
          have hdd : noDoubleHyphen (d :: t) = true := by
            rw [← hrec]
            exact ih true
          simp [hdd]
    · rw [collapseHyphens, if_neg ha]
      cases hrec : collapseHyphens false rest with
      | nil => rfl
      | cons d t =>
        unfold noDoubleHyphen
        have haf : isHyphen a = false := by simpa using ha
        rw [haf]
        have hdd : noDoubleHyphen (d :: t) = true := by
          rw [← hrec]
          exact ih false
        simp [hdd]

lemma noDD_dropWhile (l : List Char) (h : noDoubleHyphen l = true) :
    noDoubleHyphen (l.dropWhile isHyphen) = true := by
  induction l with
  | nil => rfl
  | cons a rest ih =>
    rw [List.dropWhile_cons]
    by_cases ha : isHyphen a = true
    · rw [if_pos ha]
      exact ih (noDD_tail a rest h)
    · rw [if_neg ha]
      exact h

lemma dropWhile_head (l : List Char) :
    headHyphen (l.dropWhile isHyphen) = false := by
  induction l with
  | nil => rfl
  | cons a rest ih =>
    rw [List.dropWhile_cons]
    by_cases ha : isHyphen a = true
    · rw [if_pos ha]
      exact ih
    · rw [if_neg ha]
      simpa [headHyphen] using ha

lemma rstrip_head (l : List Char) :
    rstripHyphens l = [] ∨ headHyphen (rstripHyphens l) = headHyphen l := by
  cases l with
  | nil => left; rfl
  | cons a rest =>
    cases hr : rstripHyphens rest with
    | nil =>
      by_cases ha : isHyphen a = true
      · left
        rw [rstripHyphens, hr, if_pos ha]
      · right
        rw [rstripHyphens, hr, if_neg ha]
        rfl
    | cons d t =>
      right
      rw [rstripHyphens, hr]
      rfl

lemma rstrip_noDD (l : List Char) (h : noDoubleHyphen l = true) :
    noDoubleHyphen (rstripHyphens l) = true := by
  induction l with
  | nil => rfl
  | cons a rest ih =>
    have h' := noDD_tail a rest h
    cases hr : rstripHyphens rest with
    | nil =>
      rw [rstripHyphens, hr]
      by_cases ha : isHyphen a = true
      · rw [if_pos ha]; rfl
      · rw [if_neg ha]; rfl
    | cons d t =>
      rw [rstripHyphens, hr]
      have hdd : noDoubleHyphen (d :: t) = true := by
        rw [← hr]
        exact ih h'
      cases rest with
      | nil => simp [rstripHyphens] at hr
      | cons e t2 =>
        rcases rstrip_head (e :: t2) with he | hh
        · rw [he] at hr
          simp at hr
        · rw [hr] at hh
          have hpair : (!(isHyphen a && isHyphen e)) = true :=
            (Bool.and_eq_true_iff.mp h).1
          have hde : isHyphen d = isHyphen e := by
            simpa [headHyphen] using hh
          unfold noDoubleHyphen
          rw [hde, hpair, hdd]
          rfl

lemma rstrip_last (l : List Char) :
    rstripHyphens l = [] ∨
      ∀ x, (rstripHyphens l).getLast? = some x → isHyphen x = false := by
  induction l with
  | nil => left; rfl
  | cons a rest ih =>
    cases hr : rstripHyphens rest with
    | nil =>
      by_cases ha : isHyphen a = true
      · left
        rw [rstripHyphens, hr, if_pos ha]
      · right
        intro x hx
        rw [rstripHyphens, hr, if_neg ha] at hx
        simp only [List.getLast?_singleton, Option.some.injEq] at hx
        subst hx
        simpa using ha
    | cons d t =>
      right
      intro x hx
      rw [rstripHyphens, hr, List.getLast?_cons_cons] at hx
      rcases ih with he | hlast
      · rw [he] at hr
        simp at hr
      · exact hlast x (by rw [hr]; exact hx)

lemma rstrip_id (l : List Char)
    (h : ∀ x, l.getLast? = some x → isHyphen x = false) :
    rstripHyphens l = l := by
  induction l with
  | nil => rfl
  | cons a rest ih =>
    cases rest with
    | nil =>
      have ha : isHyphen a = false := h a (by simp)
      rw [rstripHyphens]
      simp [rstripHyphens, ha]
    | cons d t =>
      have hr : rstripHyphens (d :: t) = d :: t :=
        ih (fun x hx => h x (by rw [List.getLast?_cons_cons]; exact hx))
      rw [rstripHyphens, hr]

lemma collapseHyphens_id (l : List Char) :
    ∀ b, noDoubleHyphen l = true → (b = true → headHyphen l = false) →
      collapseHyphens b l = l := by
  induction l with
  | nil => intro b _ _; rfl
  | cons a rest ih
  =>
    intro b hdd hb
    by_cases ha : isHyphen a = true
    · have hbf : b = false := by
        cases b with
        | false => rfl
        | true =>
          have := hb rfl
          rw [headHyphen] at this
          rw [this] at ha
          simp at ha
      subst hbf
      rw [collapseHyphens, if_pos ha]
      rw [if_neg Bool.false_ne_true, List.singleton_append]
      have hchar : a = '-' := by
        have := ha
        unfold isHyphen at this
        simpa using this
      subst hchar
      have hrest : collapseHyphens true rest = rest := by
        apply ih true (noDD_tail _ _ hdd)
        intro _
        cases rest with
        | nil => rfl
        | cons d t =>
          have hpair := (Bool.and_eq_true_iff.mp hdd).1
          rw [headHyphen]
          have hdash : isHyphen '-' = true := by rfl
          rw [hdash] at hpair
          simpa using hpair
      rw [hrest]
    · rw [collapseHyphens, if_neg ha]
      rw [ih false (noDD_tail _ _ hdd) (fun hfalse => by simp at hfalse)]

lemma dropWhile_id_of_head (l : List Char) (h : headHyphen l = false) :
    l.dropWhile isHyphen = l := by
  cases l with
  | nil => rfl
  | cons a rest =>
    rw [List.dropWhile_cons]
    rw [headHyphen] at h
    rw [if_neg (by simp [h])]

lemma sanitize_noDD (s : List Char) :
    noDoubleHyphen (sanitizeFilename s) = true := by
  unfold sanitizeFilename
  apply rstrip_noDD
  apply noDD_dropWhile
  exact collapseHyphens_noDD _ false

lemma sanitize_head (s : List Char) :
    headHyphen (sanitizeFilename s) = false := by
  unfold sanitizeFilename
  rcases rstrip_head ((collapseHyphens false
      ((collapseWs false s).filter keepChar)).dropWhile isHyphen) with he | hh
  · rw [he]
    rfl
  · rw [hh]
    exact dropWhile_head _

lemma sanitize_last (s : List Char) :
    ∀ x, (sanitizeFilename s).getLast? = some x → isHyphen x = false := by
  intro x hx
  unfold sanitizeFilename at hx
  rcases rstrip_last ((collapseHyphens false
      ((collapseWs false s).filter keepChar)).dropWhile isHyphen) with he | hlast
  · rw [he] at hx
    simp at hx
  · exact hlast x hx

lemma sanitize_fixed (t : List Char)
    (hkeep : ∀ c ∈ t, keepChar c = true)
    (hnoDD : noDoubleHyphen t = true)
    (hhead : headHyphen t = false)
    (hlast : ∀ x, t.getLast? = some x → isHyphen x = false) :
    sanitizeFilename t = t := by
  have hws : ∀ c ∈ t, isJsWhitespace c = false :=
    fun c hc => keep_not_ws c (hkeep c hc)
  unfold sanitizeFilename
  rw [collapseWs_id t hws]
  rw [List.filter_eq_self.mpr hkeep]
  rw [collapseHyphens_id t false hnoDD (fun hfalse => by simp at hfalse)]
  rw [dropWhile_id_of_head t hhead]
  exact rstrip_id t hlast

/-- Claim C9: the server sanitization keeps only the class
`[A-Za-z0-9._-]` (whitespace runs become hyphens, other specials are
stripped, hyphen runs are collapsed, edge hyphens trimmed); the
non-degenerate example `"my video (final).mp4"` yields
`"my-video-final.mp4"`, a nonempty name entirely within the class; and
sanitization is idempotent. -/
theorem sanitize_spec :
    (∀ s : List Char, ∀ c ∈ sanitizeFilename s, keepChar c = true) ∧
    sanitizeFilename ("my video (final).mp4".toList) =
        "my-video-final.mp4".toList ∧
    ("my-video-final.mp4".toList ≠ [] ∧
      ∀ c ∈ "my-video-final.mp4".toList, keepChar c = true) ∧
    (∀ s : List Char,
      sanitizeFilename (sanitizeFilename s) = sanitizeFilename s) := by
  refine ⟨sanitize_keep, by decide, ⟨by decide, by decide⟩, ?_⟩
  intro s
  exact sanitize_fixed (sanitizeFilename s) (sanitize_keep s)
    (sanitize_noDD s) (sanitize_head s) (sanitize_last s)

end MediaGrid
